import Mathlib

/-!
Verification development for the splurge-safe-io text line decoder and
rewriter.  The repository ships only its tests, examples and scripts; the
core package itself is absent, so every definition below is a shallow
embedding modelled from the specification, with concrete behaviour pinned
by the unit and integration tests of the repository.

Modelling conventions:
* Text is a list of characters; the byte stream of a file is modelled at
  the decoded-character level (the incremental decoder adapter is the
  identity here, and a raw read of buffer_size bytes is a block of
  buffer_size characters).  This captures the terminator-tearing boundary
  behaviour the tests exercise with ASCII terminators.
* Fallible operations return Except values; the filesystem entry for the
  single target path of a writer is an Option of its contents.
-/

set_option maxRecDepth 100000

namespace SplurgeSafeIo

/-- Modelled from the spec: the ten single-character line terminators
recognized by the line splitter (line-feed, carriage-return, vertical tab,
form feed, file separator, group separator, record separator, next-line,
line separator, paragraph separator).  The two-character carriage-return
plus line-feed sequence is the eleventh recognized form and is handled by
the splitter state machine.  The set matches Python str.splitlines, which
the repository tests pin (test_more_coverage, line 251): the unit
separator U+001F is not a line boundary. -/
def lineTermChars : List Char :=
  ['\n', '\r', '\x0b', '\x0c', '\x1c', '\x1d', '\x1e', '\x85', '\u2028', '\u2029']

/-- Decides whether a character is one of the ten single-character
terminators. -/
def isLineTerm (c : Char) : Bool :=
  lineTermChars.contains c

/-- Modelled from the spec: the eleven recognized terminator forms, as
strings. -/
def recognizedTerminators : List (List Char) :=
  [['\n'], ['\r'], ['\r', '\n'], ['\x0b'], ['\x0c'], ['\x1c'], ['\x1d'],
   ['\x1e'], ['\x85'], ['\u2028'], ['\u2029']]

/-- State of the line splitter scan: completed lines so far (terminators
already stripped), the current unterminated fragment, and whether the
previous character was a carriage return whose line boundary is still
undecided (it completes to carriage-return plus line-feed if a line-feed
follows). -/
structure SplitAcc where
  lines : List (List Char)
  frag : List Char
  cr : Bool
deriving Repr, DecidableEq

/-- Initial splitter state. -/
def splitInit : SplitAcc :=
  ⟨[], [], false⟩

/-- Modelled from the spec: one step of the line splitter scan over a
single character, implementing the eleven-form terminator recognition with
carriage-return plus line-feed treated as a single boundary. -/
def splitStep (a : SplitAcc) (c : Char) : SplitAcc :=
  if a.cr then
    if c = '\n' then ⟨a.lines ++ [a.frag], [], false⟩
    else if c = '\r' then ⟨a.lines ++ [a.frag], [], true⟩
    else if isLineTerm c then ⟨a.lines ++ [a.frag, []], [], false⟩
    else ⟨a.lines ++ [a.frag], [c], false⟩
  else
    if c = '\r' then ⟨a.lines, a.frag, true⟩
    else if isLineTerm c then ⟨a.lines ++ [a.frag], [], false⟩
    else ⟨a.lines, a.frag ++ [c], false⟩

/-- Runs the splitter scan over a text from a given state. -/
def runSplitter (a : SplitAcc) (s : List Char) : SplitAcc :=
  s.foldl splitStep a

/-- Modelled from the spec (section 4.2): split a text consisting of the
previous carry plus newly decoded text into complete logical lines and a
new carry.  The last part becomes the carry when it does not end in a
complete terminator; a trailing lone carriage return is also carried, since
it may be completed to carriage-return plus line-feed by the next raw
read. -/
def splitCarryStep (t : List Char) : List (List Char) × List Char :=
  let a := runSplitter splitInit t
  (a.lines, a.frag ++ if a.cr then ['\r'] else [])

/-- Modelled from the spec: one-shot split of a whole text into logical
lines with terminators stripped, Python str.splitlines semantics (a final
unterminated fragment becomes the last line; a trailing terminator does not
produce an extra empty line; the empty text has no lines). -/
def splitLinesOneShot (t : List Char) : List (List Char) :=
  let a := runSplitter splitInit t
  a.lines ++ (if a.cr then [a.frag] else if a.frag.isEmpty then [] else [a.frag])

example : splitLinesOneShot "line1\r\nline2\rline3\nline4".data =
    ["line1".data, "line2".data, "line3".data, "line4".data] := by decide

example : splitLinesOneShot "single line\n".data = ["single line".data] := by decide

example : splitLinesOneShot [] = [] := by decide

example : splitLinesOneShot "a\r\r\n".data = ["a".data, [] ] := by decide

example : splitLinesOneShot "\r".data = [[]] := by decide

example : splitCarryStep "ab\r".data = ([], "ab\r".data) := by decide

example : splitCarryStep "ab\r\ncd".data = (["ab".data], "cd".data) := by decide

example : splitLinesOneShot "a\x1fb".data = ["a\x1fb".data] := by decide

/-- Splits a list into consecutive blocks; the block size is n for n at
least one (an n of zero degenerates to singleton blocks), and the final
block may be shorter.  The first argument of the recursion is fuel, set to
the list length by chunksOf so the recursion is structural and computes by
reduction. -/
def chunksOfAux (n : Nat) : Nat → List α → List (List α)
  | _, [] => []
  | 0, x :: xs => [x :: xs]
  | fuel + 1, x :: xs => (x :: xs.take (n - 1)) :: chunksOfAux n fuel (xs.drop (n - 1))

/-- Modelled from the spec: division of a stream into consecutive bounded
blocks, used both for raw reads of buffer_size bytes and for batching
filtered lines into chunks of chunk_size lines. -/
def chunksOf (n : Nat) (l : List α) : List (List α) :=
  chunksOfAux n l.length l

example : chunksOf 3 [1, 2, 3, 4, 5, 6, 7] = [[1, 2, 3], [4, 5, 6], [7]] := by decide

/-- Modelled from the spec: reader configuration.  The encoding is not
modelled (text is already decoded); buffer_size is passed separately to the
streaming entry point.  Defaults follow section 6 of the spec; the default
chunk_size value is not observable in the repository sources, so the value
used by the consistency tests stands in for it (it does not affect any
claim). -/
structure ReaderConfig where
  skip_header_lines : Nat := 0
  skip_footer_lines : Nat := 0
  skip_empty_lines : Bool := false
  strip : Bool := false
  chunk_size : Nat := 500
deriving Repr, DecidableEq

/-- Default reader configuration. -/
def defaultConfig : ReaderConfig :=
  {}

/-- Whitespace characters removed by trimming, as in Python str.strip for
the character set that can occur around a logical line. -/
def isSpaceChar (c : Char) : Bool :=
  c = ' ' || c = '\t' || c = '\n' || c = '\r' || c = '\x0b' || c = '\x0c'

/-- Modelled from the spec: whitespace trim of both ends of a line. -/
def trimWS (l : List Char) : List Char :=
  ((l.dropWhile isSpaceChar).reverse.dropWhile isSpaceChar).reverse

example : trimWS "  content1  ".data = "content1".data := by decide

/-- Modelled from the spec (section 4.4): the line filter applied to each
eligible line; a line that is empty after trimming is dropped when
skip_empty_lines is set, and otherwise the line is emitted, trimmed first
when strip is set. -/
def filterLine (stripFlag skipEmptyFlag : Bool) (l : List Char) : List (List Char) :=
  if skipEmptyFlag && (trimWS l).isEmpty then []
  else [if stripFlag then trimWS l else l]

/-- The line filter applied pointwise to a sequence of eligible lines. -/
def filterLines (stripFlag skipEmptyFlag : Bool) (ls : List (List Char)) : List (List Char) :=
  (ls.map (filterLine stripFlag skipEmptyFlag)).flatten

/-- Modelled from the spec (section 4.3): state of the header/footer
windower, a remaining header count and the bounded footer FIFO. -/
structure WindowState where
  hdrRemaining : Nat
  window : List (List Char)
deriving Repr, DecidableEq

/-- Modelled from the spec (section 4.3): push one logical line through
the header counter and the footer FIFO of capacity footerCount; the header
counter discards the first lines unconditionally, and a push that would
overfill the FIFO pops the oldest line, which becomes eligible for
emission. -/
def pushLine (footerCount : Nat) (st : WindowState) (l : List Char) :
    WindowState × List (List Char) :=
  if 0 < st.hdrRemaining then
    (⟨st.hdrRemaining - 1, st.window⟩, [])
  else
    let w := st.window ++ [l]
    if footerCount < w.length then
      (⟨0, w.drop 1⟩, w.take 1)
    else
      (⟨0, w⟩, [])

/-- Pushes a batch of logical lines through the windower, concatenating the
eligible emissions in order. -/
def pushAll (footerCount : Nat) (st : WindowState) : List (List Char) →
    WindowState × List (List Char)
  | [] => (st, [])
  | l :: ls =>
    let p := pushLine footerCount st l
    let q := pushAll footerCount p.1 ls
    (q.1, p.2 ++ q.2)

/-- Modelled from the spec: the reader streaming state between raw reads;
the carry fragment plus the windower state.  Owned by one reader instance. -/
structure RState where
  carry : List Char
  win : WindowState
deriving Repr, DecidableEq

/-- Initial streaming state for a configuration. -/
def initRState (cfg : ReaderConfig) : RState :=
  ⟨[], ⟨cfg.skip_header_lines, []⟩⟩

/-- Modelled from the spec (section 4.7 state machine, Streaming loop):
process one raw buffer: prepend the carry, split into complete lines and a
new carry, push lines through the windower, filter the eligible lines. -/
def feedBuffer (cfg : ReaderConfig) (st : RState) (buf : List Char) :
    RState × List (List Char) :=
  let p := splitCarryStep (st.carry ++ buf)
  let q := pushAll cfg.skip_footer_lines st.win p.1
  (⟨p.2, q.1⟩, filterLines cfg.strip cfg.skip_empty_lines q.2)

/-- Processes a sequence of raw buffers in order, concatenating the
filtered emissions. -/
def feedAll (cfg : ReaderConfig) (st : RState) : List (List Char) →
    RState × List (List Char)
  | [] => (st, [])
  | b :: bs =>
    let p := feedBuffer cfg st b
    let q := feedAll cfg p.1 bs
    (q.1, p.2 ++ q.2)

/-- Modelled from the spec (section 4.7, Finalizing): at end-of-stream the
final carry is split into its last logical lines and pushed through the
windower; the lines still held in the footer FIFO afterwards are discarded,
never emitted. -/
def finalizeReader (cfg : ReaderConfig) (st : RState) : List (List Char) :=
  let ls := splitLinesOneShot st.carry
  let q := pushAll cfg.skip_footer_lines st.win ls
  filterLines cfg.strip cfg.skip_empty_lines q.2

/-- Header skip and footer drop applied positionally to the full list of
logical lines: drop the first skip_header_lines and the last
skip_footer_lines. -/
def applyHeaderFooter (hdrCount footerCount : Nat) (ls : List (List Char)) :
    List (List Char) :=
  let m := ls.drop hdrCount
  m.take (m.length - footerCount)

/-- Modelled from the spec: the full-read readlines path; split the whole
decoded text at once, apply header and footer skipping, then the line
filter. -/
def readlines (cfg : ReaderConfig) (content : List Char) : List (List Char) :=
  filterLines cfg.strip cfg.skip_empty_lines
    (applyHeaderFooter cfg.skip_header_lines cfg.skip_footer_lines
      (splitLinesOneShot content))

/-- Joins line lists with a separator string, as in joining logical lines
with the canonical terminator. -/
def joinWith (sep : List Char) : List (List Char) → List Char
  | [] => []
  | [x] => x
  | x :: y :: rest => x ++ sep ++ joinWith sep (y :: rest)

/-- Modelled from the spec: the read entry point; the whole file as
normalized text, lines joined by the canonical line-feed terminator. -/
def read (cfg : ReaderConfig) (content : List Char) : List Char :=
  joinWith ['\n'] (readlines cfg content)

/-- Modelled from the spec: the streaming entry point, flattened; the file
content is cut into raw reads of bufferSize characters, fed through the
streaming state machine, and finalized at end-of-stream. -/
def readlines_as_stream_flat (cfg : ReaderConfig) (bufferSize : Nat)
    (content : List Char) : List (List Char) :=
  let p := feedAll cfg (initRState cfg) (chunksOf bufferSize content)
  p.2 ++ finalizeReader cfg p.1

/-- Modelled from the spec: the streaming entry point; the filtered lines
batched into chunks of at most chunk_size lines, the final chunk possibly
smaller. -/
def readlines_as_stream (cfg : ReaderConfig) (bufferSize : Nat)
    (content : List Char) : List (List (List Char)) :=
  chunksOf cfg.chunk_size (readlines_as_stream_flat cfg bufferSize content)

example : readlines defaultConfig "line1\r\nline2\rline3\nline4".data =
    ["line1".data, "line2".data, "line3".data, "line4".data] := by decide

example : read defaultConfig "line1\r\nline2\rline3\nline4".data =
    "line1\nline2\nline3\nline4".data := by decide

example : readlines_as_stream_flat defaultConfig 3 "ab\r\ncd\nef".data =
    ["ab".data, "cd".data, "ef".data] := by decide

example :
    readlines { skip_header_lines := 2, skip_footer_lines := 2,
                skip_empty_lines := true, strip := true }
      "  header1  \n  header2  \n\n   \n  content1  \n  content2  \n\n  footer1  \n  footer2  ".data =
    ["content1".data, "content2".data] := by decide

example :
    readlines_as_stream_flat { skip_header_lines := 2, skip_footer_lines := 1, strip := true } 4
      "hdr1\nhdr2\nbody1\nbody2\ntail".data = ["body1".data, "body2".data] := by decide

example :
    readlines_as_stream { chunk_size := 3, skip_footer_lines := 2 } 4
      "l0\nl1\nl2\nl3\nl4\nl5\nl6\nl7\nl8\nl9".data =
    [["l0".data, "l1".data, "l2".data], ["l3".data, "l4".data, "l5".data],
     ["l6".data, "l7".data]] := by decide

/-- A list of characters containing no single-character line terminator. -/
def termFree (l : List Char) : Prop :=
  ∀ c ∈ l, isLineTerm c = false

instance (l : List Char) : Decidable (termFree l) := by
  unfold termFree
  infer_instance

theorem runSplitter_append (a : SplitAcc) (s t : List Char) :
    runSplitter a (s ++ t) = runSplitter (runSplitter a s) t := by
  simp [runSplitter, List.foldl_append]

theorem splitStep_nonterm {c : Char} (h : isLineTerm c = false) (L : List (List Char))
    (f : List Char) : splitStep ⟨L, f, false⟩ c = ⟨L, f ++ [c], false⟩ := by
  have hr : ¬c = '\r' := by
    intro e
    subst e
    revert h
    decide
  simp [splitStep, h, hr]

theorem runSplitter_termfree (u : List Char) (h : termFree u) (L : List (List Char))
    (f : List Char) : runSplitter ⟨L, f, false⟩ u = ⟨L, f ++ u, false⟩ := by
  induction u generalizing f with
  | nil => simp [runSplitter]
  | cons c u ih =>
    have hc : isLineTerm c = false := h c (List.mem_cons_self c u)
    have hu : termFree u := fun d hd => h d (List.mem_cons_of_mem c hd)
    have h1 : runSplitter ⟨L, f, false⟩ (c :: u) = runSplitter (splitStep ⟨L, f, false⟩ c) u := rfl
    rw [h1, splitStep_nonterm hc, ih hu (f ++ [c])]
    simp

theorem splitStep_factor (a : SplitAcc) (c : Char) :
    splitStep a c = ⟨a.lines ++ (splitStep ⟨[], a.frag, a.cr⟩ c).lines,
                     (splitStep ⟨[], a.frag, a.cr⟩ c).frag,
                     (splitStep ⟨[], a.frag, a.cr⟩ c).cr⟩ := by
  obtain ⟨L, f, b⟩ := a
  simp only [splitStep]
  split_ifs <;> simp

theorem runSplitter_factor (s : List Char) (a : SplitAcc) :
    (runSplitter a s).frag = (runSplitter ⟨[], a.frag, a.cr⟩ s).frag ∧
    (runSplitter a s).cr = (runSplitter ⟨[], a.frag, a.cr⟩ s).cr ∧
    (runSplitter a s).lines = a.lines ++ (runSplitter ⟨[], a.frag, a.cr⟩ s).lines := by
  induction s generalizing a with
  | nil => simp [runSplitter]
  | cons c s ih =>
    have l1 : runSplitter a (c :: s) = runSplitter (splitStep a c) s := rfl
    have l2 : runSplitter (⟨[], a.frag, a.cr⟩ : SplitAcc) (c :: s)
        = runSplitter (splitStep ⟨[], a.frag, a.cr⟩ c) s := rfl
    rw [l1, l2, splitStep_factor a c]
    obtain ⟨f1, c1, ln1⟩ := ih ⟨a.lines ++ (splitStep ⟨[], a.frag, a.cr⟩ c).lines,
      (splitStep ⟨[], a.frag, a.cr⟩ c).frag, (splitStep ⟨[], a.frag, a.cr⟩ c).cr⟩
    obtain ⟨f2, c2, ln2⟩ := ih (splitStep ⟨[], a.frag, a.cr⟩ c)
    refine ⟨?_, ?_, ?_⟩
    · rw [f1, f2]
    · rw [c1, c2]
    · rw [ln1, ln2]
      simp

theorem termFree_nil : termFree ([] : List Char) := by
  intro x hx
  exact absurd hx (List.not_mem_nil x)

theorem termFree_single {c : Char} (h : isLineTerm c = false) : termFree [c] := by
  intro x hx
  rw [List.mem_singleton.mp hx]
  exact h

theorem termFree_append {u v : List Char} (hu : termFree u) (hv : termFree v) :
    termFree (u ++ v) := by
  intro x hx
  rcases List.mem_append.mp hx with hx | hx
  · exact hu x hx
  · exact hv x hx

theorem linesTF_append {L M : List (List Char)} (hL : ∀ l ∈ L, termFree l)
    (hM : ∀ l ∈ M, termFree l) : ∀ l ∈ L ++ M, termFree l := by
  intro l hl
  rcases List.mem_append.mp hl with hl | hl
  · exact hL l hl
  · exact hM l hl

theorem splitStep_inv (a : SplitAcc) (c : Char)
    (h : termFree a.frag ∧ ∀ l ∈ a.lines, termFree l) :
    termFree (splitStep a c).frag ∧ ∀ l ∈ (splitStep a c).lines, termFree l := by
  obtain ⟨L, f, b⟩ := a
  obtain ⟨hf, hL⟩ := h
  have hone : ∀ l ∈ [f], termFree l := by
    intro l hl
    rw [List.mem_singleton.mp hl]
    exact hf
  have htwo : ∀ l ∈ [f, []], termFree l := by
    intro l hl
    rcases List.mem_cons.mp hl with hl | hl
    · rw [hl]; exact hf
    · rw [List.mem_singleton.mp hl]; exact termFree_nil
  simp only [splitStep]
  split_ifs with h1 h2 h3 h4 h5 h6
  · exact ⟨termFree_nil, linesTF_append hL hone⟩
  · exact ⟨termFree_nil, linesTF_append hL hone⟩
  · exact ⟨termFree_nil, linesTF_append hL htwo⟩
  · exact ⟨termFree_single (by simpa using h4), linesTF_append hL hone⟩
  · exact ⟨hf, hL⟩
  · exact ⟨termFree_nil, linesTF_append hL hone⟩
  · exact ⟨termFree_append hf (termFree_single (by simpa using h6)), hL⟩

theorem runSplitter_inv (s : List Char) (a : SplitAcc)
    (h : termFree a.frag ∧ ∀ l ∈ a.lines, termFree l) :
    termFree (runSplitter a s).frag ∧ ∀ l ∈ (runSplitter a s).lines, termFree l := by
  induction s generalizing a with
  | nil => exact h
  | cons c s ih => exact ih _ (splitStep_inv a c h)

theorem runSplitter_init_frag_termfree (s : List Char) :
    termFree (runSplitter splitInit s).frag :=
  (runSplitter_inv s splitInit ⟨fun c hc => absurd hc (List.not_mem_nil c), by simp [splitInit]⟩).1

theorem rescan_carry (a : SplitAcc) (h : termFree a.frag) :
    runSplitter splitInit (a.frag ++ if a.cr then ['\r'] else []) = ⟨[], a.frag, a.cr⟩ := by
  have h1 : runSplitter splitInit a.frag = ⟨[], a.frag, false⟩ := by
    have h2 := runSplitter_termfree a.frag h [] []
    simpa [splitInit] using h2
  cases hcr : a.cr with
  | false => simpa using h1
  | true =>
    rw [if_pos rfl, runSplitter_append, h1]
    simp [runSplitter, splitStep]

theorem splitCarryStep_rescan (s : List Char) :
    runSplitter splitInit ((splitCarryStep s).2)
      = ⟨[], (runSplitter splitInit s).frag, (runSplitter splitInit s).cr⟩ := by
  exact rescan_carry (runSplitter splitInit s) (runSplitter_init_frag_termfree s)

theorem splitCarryStep_def (t : List Char) :
    splitCarryStep t = ((runSplitter splitInit t).lines,
      (runSplitter splitInit t).frag
        ++ if (runSplitter splitInit t).cr then ['\r'] else []) := rfl

theorem splitLinesOneShot_def (t : List Char) :
    splitLinesOneShot t = (runSplitter splitInit t).lines
      ++ (if (runSplitter splitInit t).cr then [(runSplitter splitInit t).frag]
          else if (runSplitter splitInit t).frag.isEmpty then []
          else [(runSplitter splitInit t).frag]) := rfl

theorem splitCarryStep_carry_fix (s : List Char) :
    splitCarryStep ((splitCarryStep s).2) = ([], (splitCarryStep s).2) := by
  rw [splitCarryStep_def ((splitCarryStep s).2), splitCarryStep_rescan s]
  simp [splitCarryStep_def s]

theorem splitCarryStep_append (s t : List Char) :
    splitCarryStep (s ++ t)
      = ((splitCarryStep s).1 ++ (splitCarryStep ((splitCarryStep s).2 ++ t)).1,
         (splitCarryStep ((splitCarryStep s).2 ++ t)).2) := by
  have h2 : runSplitter splitInit ((splitCarryStep s).2 ++ t)
      = runSplitter ⟨[], (runSplitter splitInit s).frag, (runSplitter splitInit s).cr⟩ t := by
    rw [runSplitter_append, splitCarryStep_rescan s]
  have h3 : runSplitter splitInit (s ++ t) = runSplitter (runSplitter splitInit s) t :=
    runSplitter_append _ _ _
  obtain ⟨f1, c1, ln1⟩ := runSplitter_factor t (runSplitter splitInit s)
  rw [splitCarryStep_def (s ++ t), splitCarryStep_def ((splitCarryStep s).2 ++ t), h3, h2,
    splitCarryStep_def s]
  simp [f1, c1, ln1]

theorem splitLinesOneShot_carry (s : List Char) :
    splitLinesOneShot s
      = (splitCarryStep s).1 ++ splitLinesOneShot ((splitCarryStep s).2) := by
  rw [splitLinesOneShot_def ((splitCarryStep s).2), splitCarryStep_rescan s,
    splitLinesOneShot_def s, splitCarryStep_def s]
  simp

theorem filterLines_append (b1 b2 : Bool) (x y : List (List Char)) :
    filterLines b1 b2 (x ++ y) = filterLines b1 b2 x ++ filterLines b1 b2 y := by
  simp [filterLines]

theorem pushAll_append (fc : Nat) (st : WindowState) (l1 l2 : List (List Char)) :
    pushAll fc st (l1 ++ l2)
      = ((pushAll fc (pushAll fc st l1).1 l2).1,
         (pushAll fc st l1).2 ++ (pushAll fc (pushAll fc st l1).1 l2).2) := by
  induction l1 generalizing st with
  | nil => simp [pushAll]
  | cons l ls ih =>
    simp only [List.cons_append, pushAll, List.append_eq]
    rw [ih (pushLine fc st l).1]
    simp

theorem pushAll_spec (fc : Nat) (ls : List (List Char)) :
    ∀ (h : Nat) (w : List (List Char)), w.length ≤ fc →
    pushAll fc ⟨h, w⟩ ls
      = (⟨h - ls.length,
          (w ++ ls.drop h).drop ((w ++ ls.drop h).length - fc)⟩,
         (w ++ ls.drop h).take ((w ++ ls.drop h).length - fc)) := by
  induction ls with
  | nil =>
    intro h w hw
    have h0 : w.length - fc = 0 := by omega
    simp [pushAll, h0]
  | cons l ls ih =>
    intro h w hw
    match h with
    | Nat.succ h1 =>
      have hstep : pushLine fc ⟨Nat.succ h1, w⟩ l = (⟨h1, w⟩, []) := by
        simp [pushLine]
      simp only [pushAll, hstep]
      rw [ih h1 w hw]
      simp only [List.length_cons, List.drop_succ_cons, Nat.succ_sub_succ, List.nil_append]
    | 0 =>
      by_cases hfull : fc < w.length + 1
      · have hweq : w.length = fc := by omega
        have hstep : pushLine fc ⟨0, w⟩ l = (⟨0, (w ++ [l]).drop 1⟩, (w ++ [l]).take 1) := by
          simp [pushLine, hfull]
        have hlen : ((w ++ [l]).drop 1).length ≤ fc := by
          simp
          omega
        have assoc : w ++ l :: ls = (w ++ [l]) ++ ls := by
          simp
        simp only [pushAll, hstep]
        rw [ih 0 ((w ++ [l]).drop 1) hlen]
        simp only [List.drop_zero]
        rw [assoc]
        have hW : 1 ≤ (w ++ [l]).length := by
          simp
        have hlen2 : ((w ++ [l]).drop 1 ++ ls).length - fc = ls.length := by
          simp
          omega
        have hlen3 : ((w ++ [l]) ++ ls).length - fc = 1 + ls.length := by
          simp
          omega
        rw [hlen2, hlen3]
        simp only [Prod.mk.injEq, WindowState.mk.injEq]
        refine ⟨⟨by simp, ?_⟩, ?_⟩
        · rw [show ((w ++ [l]) ++ ls).drop (1 + ls.length)
              = (((w ++ [l]) ++ ls).drop 1).drop ls.length by
            rw [List.drop_drop]]
          rw [List.drop_append_of_le_length hW]
        · rw [List.take_add]
          rw [List.take_append_of_le_length hW, List.drop_append_of_le_length hW]
      · have hle : (w ++ [l]).length ≤ fc := by
          simp
          omega
        have hstep : pushLine fc ⟨0, w⟩ l = (⟨0, w ++ [l]⟩, []) := by
          simp only [pushLine]
          rw [if_neg (by omega)]
          rw [if_neg (by simp; omega)]
        simp only [pushAll, hstep]
        rw [ih 0 (w ++ [l]) hle]
        simp only [List.drop_zero]
        have assoc : w ++ l :: ls = (w ++ [l]) ++ ls := by
          simp
        rw [assoc]
        simp

theorem flatten_chunksOfAux (n : Nat) :
    ∀ (fuel : Nat) (l : List α), (chunksOfAux n fuel l).flatten = l := by
  intro fuel
  induction fuel with
  | zero =>
    intro l
    cases l with
    | nil => simp [chunksOfAux]
    | cons x xs => simp [chunksOfAux]
  | succ fuel ih =>
    intro l
    cases l with
    | nil => simp [chunksOfAux]
    | cons x xs =>
      simp only [chunksOfAux, List.flatten_cons, ih]
      simp [List.take_append_drop]

theorem flatten_chunksOf (n : Nat) (l : List α) : (chunksOf n l).flatten = l :=
  flatten_chunksOfAux n l.length l

theorem feedAll_spec (cfg : ReaderConfig) (bufs : List (List Char)) :
    ∀ (c : List Char) (st : WindowState), splitCarryStep c = ([], c) →
    feedAll cfg ⟨c, st⟩ bufs
      = (⟨(splitCarryStep (c ++ bufs.flatten)).2,
          (pushAll cfg.skip_footer_lines st (splitCarryStep (c ++ bufs.flatten)).1).1⟩,
         filterLines cfg.strip cfg.skip_empty_lines
           (pushAll cfg.skip_footer_lines st (splitCarryStep (c ++ bufs.flatten)).1).2) := by
  induction bufs with
  | nil =>
    intro c st hc
    simp only [feedAll, List.flatten_nil, List.append_nil, hc]
    simp [pushAll, filterLines]
  | cons b bs ih =>
    intro c st hc
    have hfix : splitCarryStep ((splitCarryStep (c ++ b)).2) = ([], (splitCarryStep (c ++ b)).2) :=
      splitCarryStep_carry_fix (c ++ b)
    have hassoc : c ++ (b :: bs).flatten = (c ++ b) ++ bs.flatten := by
      simp
    have hsplit := splitCarryStep_append (c ++ b) bs.flatten
    simp only [feedAll, feedBuffer]
    rw [ih (splitCarryStep (c ++ b)).2
      (pushAll cfg.skip_footer_lines st (splitCarryStep (c ++ b)).1).1 hfix]
    rw [hassoc, hsplit]
    rw [pushAll_append]
    rw [filterLines_append]

theorem stream_flat_eq_readlines (cfg : ReaderConfig) (bufferSize : Nat)
    (content : List Char) :
    readlines_as_stream_flat cfg bufferSize content = readlines cfg content := by
  have hnil : splitCarryStep ([] : List Char) = ([], []) := rfl
  have hmain := feedAll_spec cfg (chunksOf bufferSize content) []
    ⟨cfg.skip_header_lines, []⟩ hnil
  simp only [readlines_as_stream_flat, initRState, hmain, flatten_chunksOf,
    List.nil_append, finalizeReader]
  rw [← filterLines_append]
  have hp2 : (pushAll cfg.skip_footer_lines ⟨cfg.skip_header_lines, []⟩
        ((splitCarryStep content).1 ++ splitLinesOneShot ((splitCarryStep content).2))).2
      = (pushAll cfg.skip_footer_lines ⟨cfg.skip_header_lines, []⟩ (splitCarryStep content).1).2
        ++ (pushAll cfg.skip_footer_lines
              (pushAll cfg.skip_footer_lines ⟨cfg.skip_header_lines, []⟩
                (splitCarryStep content).1).1
              (splitLinesOneShot ((splitCarryStep content).2))).2 := by
    rw [pushAll_append]
  rw [← hp2, ← splitLinesOneShot_carry]
  rw [pushAll_spec cfg.skip_footer_lines (splitLinesOneShot content)
    cfg.skip_header_lines [] (by simp)]
  simp [readlines, applyHeaderFooter]

/-- Python str.split semantics with a single-character separator: the
empty text yields one empty field, and every separator occurrence starts a
new field, so a trailing separator yields a trailing empty field. -/
def splitOnChar (sep : Char) : List Char → List (List Char)
  | [] => [[]]
  | c :: rest =>
    if c = sep then [] :: splitOnChar sep rest
    else
      match splitOnChar sep rest with
      | [] => [[c]]
      | l :: ls => (c :: l) :: ls

example : splitOnChar '\n' "ab\nc".data = ["ab".data, "c".data] := by decide

example : splitOnChar '\n' [] = [[]] := by decide

theorem splitOnChar_sepFree {sep : Char} {l : List Char} (h : sep ∉ l) :
    splitOnChar sep l = [l] := by
  induction l with
  | nil => rfl
  | cons c rest ih =>
    have hc : ¬c = sep := fun e => h (e ▸ List.mem_cons_self c rest)
    have hr : sep ∉ rest := fun e => h (List.mem_cons_of_mem c e)
    simp only [splitOnChar, if_neg hc, ih hr]

theorem splitOnChar_append_sep {sep : Char} {u : List Char} (h : sep ∉ u) (t : List Char) :
    splitOnChar sep (u ++ sep :: t) = u :: splitOnChar sep t := by
  induction u with
  | nil => simp [splitOnChar]
  | cons c u ih =>
    have hc : ¬c = sep := fun e => h (e ▸ List.mem_cons_self c u)
    have hu : sep ∉ u := fun e => h (List.mem_cons_of_mem c e)
    simp only [List.cons_append, splitOnChar, if_neg hc, List.append_eq, ih hu]

theorem joinWith_split_roundtrip {sep : Char} (ls : List (List Char)) (hne : ls ≠ [])
    (hfree : ∀ l ∈ ls, sep ∉ l) :
    splitOnChar sep (joinWith [sep] ls) = ls := by
  induction ls with
  | nil => exact absurd rfl hne
  | cons x ls ih =>
    cases ls with
    | nil =>
      simp only [joinWith]
      exact splitOnChar_sepFree (hfree x (List.mem_cons_self x []))
    | cons y rest =>
      have hx : sep ∉ x := hfree x (List.mem_cons_self x (y :: rest))
      have hrest : ∀ l ∈ y :: rest, sep ∉ l := fun l hl => hfree l (List.mem_cons_of_mem x hl)
      have hstep : joinWith [sep] (x :: y :: rest) = x ++ sep :: joinWith [sep] (y :: rest) := by
        simp [joinWith]
      rw [hstep, splitOnChar_append_sep hx, ih (by simp) hrest]

theorem termFree_not_newline {l : List Char} (h : termFree l) : '\n' ∉ l := by
  intro hmem
  have := h '\n' hmem
  revert this
  decide

theorem splitLinesOneShot_termFree (s : List Char) :
    ∀ l ∈ splitLinesOneShot s, termFree l := by
  obtain ⟨hf, hl⟩ := runSplitter_inv s splitInit
    ⟨termFree_nil, by simp [splitInit]⟩
  rw [splitLinesOneShot_def]
  refine linesTF_append hl ?_
  intro l hmem
  split_ifs at hmem with h1 h2
  · rw [List.mem_singleton.mp hmem]
    exact hf
  · exact absurd hmem (List.not_mem_nil l)
  · rw [List.mem_singleton.mp hmem]
    exact hf

theorem mem_applyHeaderFooter {h f : Nat} {ls : List (List Char)} {l : List Char}
    (hmem : l ∈ applyHeaderFooter h f ls) : l ∈ ls := by
  simp only [applyHeaderFooter] at hmem
  exact List.mem_of_mem_drop (List.mem_of_mem_take hmem)

theorem termFree_trimWS {l : List Char} (h : termFree l) : termFree (trimWS l) := by
  intro x hx
  refine h x ?_
  simp only [trimWS, List.mem_reverse] at hx
  have h1 : x ∈ (l.dropWhile isSpaceChar).reverse := (List.dropWhile_sublist _).subset hx
  have h2 : x ∈ l.dropWhile isSpaceChar := List.mem_reverse.mp h1
  exact (List.dropWhile_sublist _).subset h2

theorem mem_filterLines {b1 b2 : Bool} {ls : List (List Char)} {l : List Char}
    (hmem : l ∈ filterLines b1 b2 ls) :
    ∃ l0 ∈ ls, l = l0 ∨ l = trimWS l0 := by
  simp only [filterLines, List.mem_flatten, List.mem_map] at hmem
  obtain ⟨m, ⟨l0, hl0, hmap⟩, hin⟩ := hmem
  refine ⟨l0, hl0, ?_⟩
  rw [← hmap] at hin
  simp only [filterLine] at hin
  split_ifs at hin with h1 h2
  · exact absurd hin (List.not_mem_nil l)
  · right
    exact List.mem_singleton.mp hin
  · left
    exact List.mem_singleton.mp hin

theorem readlines_termFree (cfg : ReaderConfig) (content : List Char) :
    ∀ l ∈ readlines cfg content, termFree l := by
  intro l hl
  simp only [readlines] at hl
  obtain ⟨l0, hl0, hcase⟩ := mem_filterLines hl
  have htf : termFree l0 :=
    splitLinesOneShot_termFree content l0 (mem_applyHeaderFooter hl0)
  rcases hcase with rfl | rfl
  · exact htf
  · exact termFree_trimWS htf

/-- C1.  Boundary insensitivity: for every fixed file content and fixed
reader configuration, flattening the chunks produced by
readlines_as_stream yields the same list of lines for every legal
buffer_size, including buffer sizes that place the first byte of a
terminator (such as the carriage return of a carriage-return plus
line-feed pair) at the final byte position of a raw read.  Stated for all
buffer sizes, which subsumes the legal ones. -/
theorem boundary_insensitivity (cfg : ReaderConfig) (content : List Char)
    (b1 b2 : Nat) :
    (readlines_as_stream cfg b1 content).flatten
      = (readlines_as_stream cfg b2 content).flatten := by
  simp [readlines_as_stream, flatten_chunksOf, stream_flat_eq_readlines]

/-- C2 (amended).  Streaming/full-read equivalence: the flattened chunks
of readlines_as_stream always equal the list returned by readlines, and
whenever the configuration yields at least one line, that list also equals
the string returned by read split on the canonical line-feed terminator.
The split equality fails only for an empty line list, where read returns
the empty string whose split is a single empty field. -/
theorem streaming_full_read_equivalence (cfg : ReaderConfig) (content : List Char)
    (b : Nat) :
    (readlines_as_stream cfg b content).flatten = readlines cfg content ∧
    (readlines cfg content ≠ [] →
      splitOnChar '\n' (read cfg content) = readlines cfg content) := by
  constructor
  · simp [readlines_as_stream, flatten_chunksOf, stream_flat_eq_readlines]
  · intro hne
    exact joinWith_split_roundtrip (readlines cfg content) hne
      (fun l hl => termFree_not_newline (readlines_termFree cfg content l hl))

/-- C2 counterexample: on the empty file with the default configuration,
flattening the stream and readlines are both empty, but read returns the
empty string and splitting it on the canonical terminator yields a single
empty field, not the empty list, so the chain of equalities claimed for
every configuration fails at its last link. -/
theorem streaming_full_read_equivalence_cex :
    (readlines_as_stream defaultConfig 4096 []).flatten = readlines defaultConfig []
    ∧ readlines defaultConfig [] = []
    ∧ read defaultConfig [] = []
    ∧ splitOnChar '\n' (read defaultConfig []) = [[]]
    ∧ splitOnChar '\n' (read defaultConfig []) ≠ readlines defaultConfig [] := by
  refine ⟨by decide, by decide, by decide, by decide, by decide⟩

/-- C2 witness: a concrete nonempty file on which the amended equivalence
chain holds end to end. -/
theorem streaming_full_read_equivalence_witness :
    readlines defaultConfig ('a' :: 'b' :: '\n' :: 'c' :: []) ≠ [] ∧
    splitOnChar '\n' (read defaultConfig ('a' :: 'b' :: '\n' :: 'c' :: []))
      = readlines defaultConfig ('a' :: 'b' :: '\n' :: 'c' :: []) :=
  ⟨by decide, (streaming_full_read_equivalence defaultConfig
    ('a' :: 'b' :: '\n' :: 'c' :: []) 1).2 (by decide)⟩

theorem filterLines_id (ls : List (List Char)) : filterLines false false ls = ls := by
  induction ls with
  | nil => rfl
  | cons l ls ih =>
    simp only [filterLines, List.map_cons, List.flatten_cons] at ih ⊢
    rw [ih]
    simp [filterLine]

/-- C3.  Footer delay: with skip_footer_lines F, after processing any
sequence of raw buffers (any prefix of the stream) the footer FIFO holds
at most F lines; the lines emitted so far are exactly the filtered image
of the complete lines seen so far minus the header and minus the last F of
them, so no line is emitted while it could still be among the last F lines
of the file; the FIFO holds exactly those pending last lines; and at
end-of-stream the whole flattened output (final carry included) is the
filtered image of all logical lines with the last F discarded, never
emitted, which with F = 0 means every line is emitted. -/
theorem footer_delay (cfg : ReaderConfig) (bufs : List (List Char)) (b : Nat) :
    (feedAll cfg (initRState cfg) bufs).1.win.window.length ≤ cfg.skip_footer_lines ∧
    (feedAll cfg (initRState cfg) bufs).2
      = filterLines cfg.strip cfg.skip_empty_lines
          (applyHeaderFooter cfg.skip_header_lines cfg.skip_footer_lines
            ((splitCarryStep bufs.flatten).1)) ∧
    (feedAll cfg (initRState cfg) bufs).1.win.window
      = (((splitCarryStep bufs.flatten).1).drop cfg.skip_header_lines).drop
          ((((splitCarryStep bufs.flatten).1).drop cfg.skip_header_lines).length
            - cfg.skip_footer_lines) ∧
    readlines_as_stream_flat cfg b bufs.flatten
      = filterLines cfg.strip cfg.skip_empty_lines
          (applyHeaderFooter cfg.skip_header_lines cfg.skip_footer_lines
            (splitLinesOneShot bufs.flatten)) := by
  have hmain := feedAll_spec cfg bufs [] ⟨cfg.skip_header_lines, []⟩ rfl
  simp only [List.nil_append] at hmain
  have hpush := pushAll_spec cfg.skip_footer_lines (splitCarryStep bufs.flatten).1
    cfg.skip_header_lines [] (by simp)
  simp only [List.nil_append] at hpush
  have hflat : readlines_as_stream_flat cfg b bufs.flatten
      = readlines cfg bufs.flatten := stream_flat_eq_readlines cfg b bufs.flatten
  refine ⟨?_, ?_, ?_, ?_⟩
  · simp only [initRState, hmain, hpush]
    simp only [List.length_drop]
    omega
  · simp only [initRState, hmain, hpush, applyHeaderFooter]
  · simp only [initRState, hmain, hpush]
  · rw [hflat]
    simp only [readlines]

/-- C4.  Header/footer arithmetic: for a file of L logical lines and any
H, F, reading with skip_header_lines H and skip_footer_lines F and no
other filtering yields exactly the middle lines in original order, of
count L minus H minus F truncated at zero (stated both with natural
subtraction and with an integer max), and an empty result whenever
H + F is at least L. -/
theorem header_footer_arithmetic (content : List Char) (H F : Nat) :
    readlines ⟨H, F, false, false, 500⟩ content
      = ((splitLinesOneShot content).drop H).take
          ((splitLinesOneShot content).length - H - F) ∧
    (readlines ⟨H, F, false, false, 500⟩ content).length
      = (splitLinesOneShot content).length - H - F ∧
    ((readlines ⟨H, F, false, false, 500⟩ content).length : Int)
      = max 0 (((splitLinesOneShot content).length : Int) - H - F) ∧
    ((splitLinesOneShot content).length ≤ H + F →
      readlines ⟨H, F, false, false, 500⟩ content = []) := by
  have heq : readlines ⟨H, F, false, false, 500⟩ content
      = ((splitLinesOneShot content).drop H).take
          ((splitLinesOneShot content).length - H - F) := by
    simp only [readlines, filterLines_id, applyHeaderFooter, List.length_drop]
  have hlen : (readlines ⟨H, F, false, false, 500⟩ content).length
      = (splitLinesOneShot content).length - H - F := by
    rw [heq]
    simp only [List.length_take, List.length_drop]
    omega
  refine ⟨heq, hlen, ?_, ?_⟩
  · rw [hlen]
    omega
  · intro hle
    rw [heq]
    have h0 : (splitLinesOneShot content).length - H - F = 0 := by omega
    rw [h0]
    simp

/-- C4 witness: a two-line file with header and footer skips that cover
it yields the empty result. -/
theorem header_footer_arithmetic_witness :
    (splitLinesOneShot ('a' :: '\n' :: 'b' :: [])).length ≤ 1 + 2 ∧
    readlines ⟨1, 2, false, false, 500⟩ ('a' :: '\n' :: 'b' :: []) = [] :=
  ⟨by decide, (header_footer_arithmetic ('a' :: '\n' :: 'b' :: []) 1 2).2.2.2 (by decide)⟩

/-- A file that uses the terminator string t exclusively: every logical
line is written followed by one copy of t. -/
def terminatedBy (t : List Char) (ls : List (List Char)) : List Char :=
  (ls.map fun l => l ++ t).flatten

theorem readlines_default (content : List Char) :
    readlines defaultConfig content = splitLinesOneShot content := by
  simp [readlines, defaultConfig, applyHeaderFooter, filterLines_id]

theorem splitStep_nonterm_cr {c : Char} (h : isLineTerm c = false) (L : List (List Char))
    (f : List Char) : splitStep ⟨L, f, true⟩ c = ⟨L ++ [f], [c], false⟩ := by
  have hn : ¬c = '\n' := by
    intro e
    subst e
    revert h
    decide
  have hr : ¬c = '\r' := by
    intro e
    subst e
    revert h
    decide
  simp [splitStep, h, hn, hr]

theorem runSplitter_body_singleNonCR {c : Char} (hterm : isLineTerm c = true)
    (hcr : ¬c = '\r') (ls : List (List Char)) :
    ∀ L, (∀ l ∈ ls, termFree l) →
    runSplitter ⟨L, [], false⟩ (terminatedBy [c] ls) = ⟨L ++ ls, [], false⟩ := by
  induction ls with
  | nil =>
    intro L _
    simp [terminatedBy, runSplitter]
  | cons l ls ih =>
    intro L hfree
    have hl : termFree l := hfree l (List.mem_cons_self l ls)
    have hls : ∀ x ∈ ls, termFree x := fun x hx => hfree x (List.mem_cons_of_mem l hx)
    have hbody : terminatedBy [c] (l :: ls) = (l ++ [c]) ++ terminatedBy [c] ls := by
      simp [terminatedBy]
    rw [hbody, runSplitter_append, runSplitter_append, runSplitter_termfree l hl L []]
    have hstep : runSplitter ⟨L, [] ++ l, false⟩ [c] = ⟨L ++ [[] ++ l], [], false⟩ := by
      simp [runSplitter, splitStep, hterm, hcr]
    rw [hstep, ih (L ++ [[] ++ l]) hls]
    simp

theorem runSplitter_body_crlf (ls : List (List Char)) :
    ∀ L, (∀ l ∈ ls, termFree l) →
    runSplitter ⟨L, [], false⟩ (terminatedBy ['\r', '\n'] ls) = ⟨L ++ ls, [], false⟩ := by
  induction ls with
  | nil =>
    intro L _
    simp [terminatedBy, runSplitter]
  | cons l ls ih =>
    intro L hfree
    have hl : termFree l := hfree l (List.mem_cons_self l ls)
    have hls : ∀ x ∈ ls, termFree x := fun x hx => hfree x (List.mem_cons_of_mem l hx)
    have hbody : terminatedBy ['\r', '\n'] (l :: ls)
        = (l ++ ['\r', '\n']) ++ terminatedBy ['\r', '\n'] ls := by
      simp [terminatedBy]
    rw [hbody, runSplitter_append, runSplitter_append, runSplitter_termfree l hl L []]
    have hstep : runSplitter ⟨L, [] ++ l, false⟩ ['\r', '\n']
        = ⟨L ++ [[] ++ l], [], false⟩ := by
      simp [runSplitter, splitStep]
    rw [hstep, ih (L ++ [[] ++ l]) hls]
    simp

theorem runSplitter_block_cr {l : List Char} (hl : termFree l) (L : List (List Char))
    (f : List Char) : runSplitter ⟨L, f, true⟩ (l ++ ['\r']) = ⟨L ++ [f], l, true⟩ := by
  cases l with
  | nil =>
    simp [runSplitter, splitStep]
  | cons c0 l1 =>
    have hc0 : isLineTerm c0 = false := hl c0 (List.mem_cons_self c0 l1)
    have hl1 : termFree l1 := fun x hx => hl x (List.mem_cons_of_mem c0 hx)
    have h1 : runSplitter ⟨L, f, true⟩ ((c0 :: l1) ++ ['\r'])
        = runSplitter (splitStep ⟨L, f, true⟩ c0) (l1 ++ ['\r']) := rfl
    rw [h1, splitStep_nonterm_cr hc0, runSplitter_append,
      runSplitter_termfree l1 hl1 (L ++ [f]) [c0]]
    simp [runSplitter, splitStep]

theorem dropLast_append_getLastD (x : List Char) (xs : List (List Char)) :
    (x :: xs).dropLast ++ [xs.getLastD x] = x :: xs := by
  induction xs generalizing x with
  | nil => rfl
  | cons y ys ih =>
    have h1 : (x :: y :: ys).dropLast = x :: (y :: ys).dropLast := rfl
    have h2 : (y :: ys).getLastD x = ys.getLastD y := List.getLastD_cons x y ys
    rw [h1, h2]
    simp only [List.cons_append]
    rw [ih y]

theorem runSplitter_body_cr (ls : List (List Char)) :
    ∀ (L : List (List Char)) (f : List Char), termFree f → (∀ l ∈ ls, termFree l) →
    runSplitter ⟨L, f, true⟩ (terminatedBy ['\r'] ls)
      = ⟨L ++ (f :: ls).dropLast, ls.getLastD f, true⟩ := by
  induction ls with
  | nil =>
    intro L f _ _
    simp [terminatedBy, runSplitter]
  | cons l ls ih =>
    intro L f hf hfree
    have hl : termFree l := hfree l (List.mem_cons_self l ls)
    have hls : ∀ x ∈ ls, termFree x := fun x hx => hfree x (List.mem_cons_of_mem l hx)
    have hbody : terminatedBy ['\r'] (l :: ls) = (l ++ ['\r']) ++ terminatedBy ['\r'] ls := by
      simp [terminatedBy]
    rw [hbody, runSplitter_append, runSplitter_block_cr hl L f, ih (L ++ [f]) l hl hls]
    have h1 : (f :: l :: ls).dropLast = f :: (l :: ls).dropLast := rfl
    have h2 : (l :: ls).getLastD f = ls.getLastD l := List.getLastD_cons f l ls
    rw [h1, h2]
    simp

theorem splitLinesOneShot_terminatedBy {t : List Char} (ht : t ∈ recognizedTerminators)
    (ls : List (List Char)) (hfree : ∀ l ∈ ls, termFree l) :
    splitLinesOneShot (terminatedBy t ls) = ls := by
  have hsingle : ∀ c, isLineTerm c = true → ¬c = '\r' →
      splitLinesOneShot (terminatedBy [c] ls) = ls := by
    intro c h1 h2
    rw [splitLinesOneShot_def]
    have hrun := runSplitter_body_singleNonCR h1 h2 ls [] hfree
    simp only [splitInit, hrun]
    simp
  have hcrlf : splitLinesOneShot (terminatedBy ['\r', '\n'] ls) = ls := by
    rw [splitLinesOneShot_def]
    have hrun := runSplitter_body_crlf ls [] hfree
    simp only [splitInit, hrun]
    simp
  have hcronly : splitLinesOneShot (terminatedBy ['\r'] ls) = ls := by
    cases ls with
    | nil => rfl
    | cons l ls1 =>
      have hl : termFree l := hfree l (List.mem_cons_self l ls1)
      have hls1 : ∀ x ∈ ls1, termFree x := fun x hx => hfree x (List.mem_cons_of_mem l hx)
      have hbody : terminatedBy ['\r'] (l :: ls1) = (l ++ ['\r']) ++ terminatedBy ['\r'] ls1 := by
        simp [terminatedBy]
      rw [splitLinesOneShot_def, hbody, runSplitter_append]
      have h1 : runSplitter splitInit (l ++ ['\r']) = ⟨[], [] ++ l, true⟩ := by
        rw [show splitInit = (⟨[], [], false⟩ : SplitAcc) from rfl, runSplitter_append,
          runSplitter_termfree l hl [] []]
        simp [runSplitter, splitStep]
      rw [h1, runSplitter_body_cr ls1 [] ([] ++ l) (by simpa using hl) hls1]
      simp only [List.nil_append, if_pos]
      exact dropLast_append_getLastD l ls1
  fin_cases ht
  · exact hsingle '\n' (by decide) (by decide)
  · exact hcronly
  · exact hcrlf
  · exact hsingle '\x0b' (by decide) (by decide)
  · exact hsingle '\x0c' (by decide) (by decide)
  · exact hsingle '\x1c' (by decide) (by decide)
  · exact hsingle '\x1d' (by decide) (by decide)
  · exact hsingle '\x1e' (by decide) (by decide)
  · exact hsingle '\x85' (by decide) (by decide)
  · exact hsingle ' ' (by decide) (by decide)
  · exact hsingle ' ' (by decide) (by decide)

/-- C5 (amended).  Terminator coverage: the line splitter recognizes
exactly eleven terminator forms, namely line-feed, carriage-return,
carriage-return plus line-feed, vertical tab, form feed, the file, group
and record separators, next-line, line separator and paragraph separator;
the unit separator U+001F is not among them.  For every file that uses any
one of the eleven forms exclusively, reading with the default
configuration yields the file lines with that terminator stripped. -/
theorem terminator_coverage (t : List Char) (ht : t ∈ recognizedTerminators)
    (ls : List (List Char)) (hfree : ∀ l ∈ ls, termFree l) :
    recognizedTerminators.length = 11 ∧
    isLineTerm '\x1f' = false ∧
    readlines defaultConfig (terminatedBy t ls) = ls := by
  refine ⟨by decide, by decide, ?_⟩
  rw [readlines_default]
  exact splitLinesOneShot_terminatedBy ht ls hfree

/-- C5 counterexample: the claim lists the unit separator among the
recognized forms, but a file using the unit separator U+001F exclusively
as its terminator is not split at it; with the default configuration the
reader returns the text as a single line with the separator still inside,
not the two lines the claim requires. -/
theorem terminator_coverage_cex :
    isLineTerm '\x1f' = false ∧
    ['\x1f'] ∉ recognizedTerminators ∧
    readlines defaultConfig ('a' :: '\x1f' :: 'b' :: [])
      = [('a' :: '\x1f' :: 'b' :: [])] ∧
    readlines defaultConfig ('a' :: '\x1f' :: 'b' :: []) ≠ [['a'], ['b']] := by
  refine ⟨by decide, by decide, by decide, by decide⟩

/-- C5 witness: a concrete two-line file terminated by carriage-return
plus line-feed is read back as its two lines. -/
theorem terminator_coverage_witness :
    (['\r', '\n'] ∈ recognizedTerminators) ∧
    (∀ l ∈ ([['a'], ['b']] : List (List Char)), termFree l) ∧
    readlines defaultConfig (terminatedBy ['\r', '\n'] [['a'], ['b']]) = [['a'], ['b']] :=
  ⟨by decide, by decide,
    (terminator_coverage ['\r', '\n'] (by decide) [['a'], ['b']] (by decide)).2.2⟩

/-- Modelled from the spec (section 4.6): the three-state write mode. -/
inductive TextFileWriteMode where
  | createNew
  | createOrTruncate
  | createOrAppend
deriving Repr, DecidableEq

/-- Modelled from the spec: writer configuration; encoding is modelled as
identity, the canonical terminator defaults to a single line-feed. -/
structure WriterConfig where
  file_write_mode : TextFileWriteMode := TextFileWriteMode.createOrTruncate
  canonical_newline : List Char := ['\n']
  create_parents : Bool := false
deriving Repr, DecidableEq

/-- One step of the writer newline normalizer: the state is the output so
far and whether a carriage return is pending (it may pair with a following
line-feed into one carriage-return plus line-feed occurrence). -/
def normStep (canon : List Char) (a : List Char × Bool) (c : Char) : List Char × Bool :=
  if a.2 then
    if c = '\n' then (a.1 ++ canon, false)
    else if c = '\r' then (a.1 ++ canon, true)
    else (a.1 ++ canon ++ [c], false)
  else
    if c = '\r' then (a.1, true)
    else if c = '\n' then (a.1 ++ canon, false)
    else (a.1 ++ [c], false)

/-- Modelled from the spec (section 4.6): on every write call, each
occurrence of line-feed, carriage-return, or carriage-return plus
line-feed in the supplied text is rewritten to the canonical terminator
before encoding and persisting. -/
def normalize_newlines (canon : List Char) (text : List Char) : List Char :=
  let a := text.foldl (normStep canon) ([], false)
  a.1 ++ if a.2 then canon else []

/-- The bytes persisted by a write call, with encoding modelled as the
identity on characters. -/
def written_bytes (wcfg : WriterConfig) (text : List Char) : List Char :=
  normalize_newlines wcfg.canonical_newline text

example : written_bytes {} "a\r\nb\n".data = "a\nb\n".data := by decide

example : written_bytes {} "a\r\nb\rc\nd".data = "a\nb\nc\nd".data := by decide

/-- One step of the reference splitter on the three common input
terminators (carriage-return plus line-feed, carriage-return, line-feed),
Python str.split semantics: state is completed fields, the current field,
and a pending carriage return. -/
def splitThreeStep (a : List (List Char) × List Char × Bool) (c : Char) :
    List (List Char) × List Char × Bool :=
  if a.2.2 then
    if c = '\n' then (a.1, [], false)
    else if c = '\r' then (a.1 ++ [[]], [], true)
    else (a.1, [c], false)
  else
    if c = '\r' then (a.1 ++ [a.2.1], [], true)
    else if c = '\n' then (a.1 ++ [a.2.1], [], false)
    else (a.1, a.2.1 ++ [c], false)

/-- Splits a text on the three common input terminators, keeping empty
fields, so the original text is the fields interleaved with exactly the
terminator occurrences the normalizer rewrites. -/
def splitThree (text : List Char) : List (List Char) :=
  let a := text.foldl splitThreeStep ([], [], false)
  a.1 ++ if a.2.2 then [[]] else [a.2.1]

example : splitThree "a\r\nb\rc\nd".data = ["a".data, "b".data, "c".data, "d".data] := by
  decide

example : splitThree "a\r".data = ["a".data, []] := by decide

theorem joinWith_concat (sep : List Char) (xs : List (List Char)) (x : List Char) :
    joinWith sep (xs ++ [x])
      = joinWith sep xs ++ (if xs.isEmpty then [] else sep) ++ x := by
  induction xs with
  | nil => simp [joinWith]
  | cons y ys ih =>
    cases ys with
    | nil => simp [joinWith]
    | cons z zs =>
      have h1 : joinWith sep ((y :: z :: zs) ++ [x])
          = y ++ sep ++ joinWith sep ((z :: zs) ++ [x]) := by
        simp [joinWith]
      rw [h1, ih]
      simp [joinWith]

theorem norm_split_sim (canon : List Char) (text : List Char) :
    ∀ (done : List (List Char)) (cur : List Char) (cr : Bool) (out : List Char),
    (cr = true → cur = [] ∧ done ≠ [] ∧ out = joinWith canon done) →
    (cr = false → out = joinWith canon (done ++ [cur])) →
    (text.foldl (normStep canon) (out, cr)).1
        ++ (if (text.foldl (normStep canon) (out, cr)).2 then canon else [])
      = joinWith canon ((text.foldl splitThreeStep (done, cur, cr)).1
          ++ if (text.foldl splitThreeStep (done, cur, cr)).2.2 then [[]]
             else [(text.foldl splitThreeStep (done, cur, cr)).2.1]) := by
  induction text with
  | nil =>
    intro done cur cr out hT hF
    cases cr with
    | false =>
      simp only [List.foldl_nil]
      rw [hF rfl]
      simp
    | true =>
      obtain ⟨hcur, hne, hout⟩ := hT rfl
      simp only [List.foldl_nil]
      rw [hout]
      simp [joinWith_concat, List.isEmpty_eq_true, hne]
  | cons c text ih =>
    intro done cur cr out hT hF
    cases cr with
    | true =>
      obtain ⟨hcur, hne, hout⟩ := hT rfl
      by_cases h1 : c = '\n'
      · subst h1
        have en : normStep canon (out, true) '\n' = (out ++ canon, false) := by
          simp [normStep]
        have es : splitThreeStep (done, cur, true) '\n' = (done, [], false) := by
          simp [splitThreeStep]
        simp only [List.foldl_cons, en, es]
        refine ih done [] false (out ++ canon) (by intro h; cases h) ?_
        intro _
        rw [hout]
        simp [joinWith_concat, List.isEmpty_eq_true, hne]
      · by_cases h2 : c = '\r'
        · subst h2
          have en : normStep canon (out, true) '\r' = (out ++ canon, true) := by
            simp [normStep]
          have es : splitThreeStep (done, cur, true) '\r' = (done ++ [[]], [], true) := by
            simp [splitThreeStep]
          simp only [List.foldl_cons, en, es]
          refine ih (done ++ [[]]) [] true (out ++ canon) ?_ (by intro h; cases h)
          intro _
          refine ⟨rfl, by simp, ?_⟩
          rw [hout]
          simp [joinWith_concat, List.isEmpty_eq_true, hne]
        · have en : normStep canon (out, true) c = (out ++ canon ++ [c], false) := by
            simp [normStep, h1, h2]
          have es : splitThreeStep (done, cur, true) c = (done, [c], false) := by
            simp [splitThreeStep, h1, h2]
          simp only [List.foldl_cons, en, es]
          refine ih done [c] false (out ++ canon ++ [c]) (by intro h; cases h) ?_
          intro _
          rw [hout]
          simp [joinWith_concat, List.isEmpty_eq_true, hne, List.append_assoc]
    | false =>
      have hout := hF rfl
      by_cases h2 : c = '\r'
      · subst h2
        have en : normStep canon (out, false) '\r' = (out, true) := by
          simp [normStep]
        have es : splitThreeStep (done, cur, false) '\r' = (done ++ [cur], [], true) := by
          simp [splitThreeStep]
        simp only [List.foldl_cons, en, es]
        refine ih (done ++ [cur]) [] true out ?_ (by intro h; cases h)
        intro _
        exact ⟨rfl, by simp, hout⟩
      · by_cases h1 : c = '\n'
        · subst h1
          have en : normStep canon (out, false) '\n' = (out ++ canon, false) := by
            simp [normStep, h2]
          have es : splitThreeStep (done, cur, false) '\n' = (done ++ [cur], [], false) := by
            simp [splitThreeStep, h2]
          simp only [List.foldl_cons, en, es]
          refine ih (done ++ [cur]) [] false (out ++ canon) (by intro h; cases h) ?_
          intro _
          rw [hout, joinWith_concat canon (done ++ [cur]) [], joinWith_concat canon done cur]
          simp [List.isEmpty_eq_true, List.append_assoc]
        · have en : normStep canon (out, false) c = (out ++ [c], false) := by
            simp [normStep, h1, h2]
          have es : splitThreeStep (done, cur, false) c = (done, cur ++ [c], false) := by
            simp [splitThreeStep, h1, h2]
          simp only [List.foldl_cons, en, es]
          refine ih done (cur ++ [c]) false (out ++ [c]) (by intro h; cases h) ?_
          intro _
          rw [hout]
          simp [joinWith_concat, List.isEmpty_eq_true, List.append_assoc]

theorem normalize_eq_join_splitThree (canon text : List Char) :
    normalize_newlines canon text = joinWith canon (splitThree text) := by
  have h := norm_split_sim canon text [] [] false []
    (by intro h; cases h) (by intro _; simp [joinWith])
  simpa [normalize_newlines, splitThree] using h

theorem splitThree_segments_free (text : List Char) :
    ∀ (done : List (List Char)) (cur : List Char) (cr : Bool),
    (∀ seg ∈ done, '\r' ∉ seg ∧ '\n' ∉ seg) → ('\r' ∉ cur ∧ '\n' ∉ cur) →
    ∀ seg ∈ ((text.foldl splitThreeStep (done, cur, cr)).1
        ++ if (text.foldl splitThreeStep (done, cur, cr)).2.2 then [[]]
           else [(text.foldl splitThreeStep (done, cur, cr)).2.1]),
      '\r' ∉ seg ∧ '\n' ∉ seg := by
  induction text with
  | nil =>
    intro done cur cr hdone hcur
    intro seg hseg
    rcases List.mem_append.mp hseg with hseg | hseg
    · exact hdone seg hseg
    · split_ifs at hseg
      · rw [List.mem_singleton.mp hseg]
        exact ⟨List.not_mem_nil '\r', List.not_mem_nil '\n'⟩
      · rw [List.mem_singleton.mp hseg]
        exact hcur
  | cons c text ih =>
    intro done cur cr hdone hcur
    have hnilseg : ('\r' ∉ ([] : List Char) ∧ '\n' ∉ ([] : List Char)) :=
      ⟨List.not_mem_nil '\r', List.not_mem_nil '\n'⟩
    have hpush : ∀ (x : List Char), ('\r' ∉ x ∧ '\n' ∉ x) →
        ∀ seg ∈ done ++ [x], '\r' ∉ seg ∧ '\n' ∉ seg := by
      intro x hx seg hseg
      rcases List.mem_append.mp hseg with hseg | hseg
      · exact hdone seg hseg
      · rw [List.mem_singleton.mp hseg]
        exact hx
    cases cr with
    | true =>
      by_cases h1 : c = '\n'
      · subst h1
        have es : splitThreeStep (done, cur, true) '\n' = (done, [], false) := by
          simp [splitThreeStep]
        simp only [List.foldl_cons, es]
        exact ih done [] false hdone hnilseg
      · by_cases h2 : c = '\r'
        · subst h2
          have es : splitThreeStep (done, cur, true) '\r' = (done ++ [[]], [], true) := by
            simp [splitThreeStep]
          simp only [List.foldl_cons, es]
          exact ih (done ++ [[]]) [] true (hpush [] hnilseg) hnilseg
        · have es : splitThreeStep (done, cur, true) c = (done, [c], false) := by
            simp [splitThreeStep, h1, h2]
          simp only [List.foldl_cons, es]
          refine ih done [c] false hdone ?_
          constructor
          · intro hc
            exact h2 (List.mem_singleton.mp hc).symm
          · intro hc
            exact h1 (List.mem_singleton.mp hc).symm
    | false =>
      by_cases h2 : c = '\r'
      · subst h2
        have es : splitThreeStep (done, cur, false) '\r' = (done ++ [cur], [], true) := by
          simp [splitThreeStep]
        simp only [List.foldl_cons, es]
        exact ih (done ++ [cur]) [] true (hpush cur hcur) hnilseg
      · by_cases h1 : c = '\n'
        · subst h1
          have es : splitThreeStep (done, cur, false) '\n' = (done ++ [cur], [], false) := by
            simp [splitThreeStep, h2]
          simp only [List.foldl_cons, es]
          exact ih (done ++ [cur]) [] false (hpush cur hcur) hnilseg
        · have es : splitThreeStep (done, cur, false) c = (done, cur ++ [c], false) := by
            simp [splitThreeStep, h1, h2]
          simp only [List.foldl_cons, es]
          refine ih done (cur ++ [c]) false hdone ?_
          constructor
          · intro hc
            rcases List.mem_append.mp hc with hc | hc
            · exact hcur.1 hc
            · exact h2 (List.mem_singleton.mp hc).symm
          · intro hc
            rcases List.mem_append.mp hc with hc | hc
            · exact hcur.2 hc
            · exact h1 (List.mem_singleton.mp hc).symm

theorem splitThree_free (text : List Char) :
    ∀ seg ∈ splitThree text, '\r' ∉ seg ∧ '\n' ∉ seg := by
  have h := splitThree_segments_free text [] [] false
    (fun seg hseg => absurd hseg (List.not_mem_nil seg))
    ⟨List.not_mem_nil '\r', List.not_mem_nil '\n'⟩
  simpa [splitThree] using h

theorem joinWith_no_cr {segs : List (List Char)}
    (h : ∀ seg ∈ segs, '\r' ∉ seg) : '\r' ∉ joinWith ['\n'] segs := by
  induction segs with
  | nil => exact List.not_mem_nil '\r'
  | cons x segs ih =>
    cases segs with
    | nil =>
      simpa [joinWith] using h x (List.mem_cons_self x [])
    | cons y rest =>
      intro hmem
      have hj : joinWith ['\n'] (x :: y :: rest)
          = x ++ '\n' :: joinWith ['\n'] (y :: rest) := by
        simp [joinWith]
      rw [hj] at hmem
      rcases List.mem_append.mp hmem with hmem | hmem
      · exact h x (List.mem_cons_self x (y :: rest)) hmem
      · rcases List.mem_cons.mp hmem with hmem | hmem
        · exact absurd hmem (by decide)
        · exact ih (fun seg hseg => h seg (List.mem_cons_of_mem x hseg)) hmem

/-- C6.  Writer normalization: on every write call, every occurrence of
line-feed, carriage-return, or carriage-return plus line-feed in the
supplied text is rewritten to the canonical terminator (default a single
line-feed) before persisting: the persisted bytes are exactly the text
fields between terminator occurrences rejoined by the canonical
terminator, the fields contain no terminator characters, and so for every
input text the bytes on disk contain no carriage return, hence no
non-canonical terminator. -/
theorem writer_normalization (text : List Char) :
    written_bytes {} text = joinWith ['\n'] (splitThree text) ∧
    (∀ seg ∈ splitThree text, '\r' ∉ seg ∧ '\n' ∉ seg) ∧
    '\r' ∉ written_bytes {} text := by
  have heq : written_bytes {} text = joinWith ['\n'] (splitThree text) :=
    normalize_eq_join_splitThree ['\n'] text
  refine ⟨heq, splitThree_free text, ?_⟩
  rw [heq]
  exact joinWith_no_cr (fun seg hseg => (splitThree_free text seg hseg).1)

/-- Modelled from the spec (section 4.7): the typed error taxonomy of the
library. -/
inductive SafeIoErrorKind where
  | pathValidation
  | fileNotFound
  | filePermission
  | fileAlreadyExists
  | fileDecoding
  | fileEncoding
  | osError
  | unknownError
deriving Repr, DecidableEq

/-- Modelled from the spec: the classes of native failures raised by the
runtime at the read/write boundary. -/
inductive NativeError where
  | notFound
  | permissionDenied
  | alreadyExists
  | decodeFailure
  | encodeFailure
  | osFailure
  | otherFailure
deriving Repr, DecidableEq

/-- Modelled from the spec (section 4.7): classification of a native
failure into the typed taxonomy, performed once at the native call site. -/
def classifyNative : NativeError → SafeIoErrorKind
  | NativeError.notFound => SafeIoErrorKind.fileNotFound
  | NativeError.permissionDenied => SafeIoErrorKind.filePermission
  | NativeError.alreadyExists => SafeIoErrorKind.fileAlreadyExists
  | NativeError.decodeFailure => SafeIoErrorKind.fileDecoding
  | NativeError.encodeFailure => SafeIoErrorKind.fileEncoding
  | NativeError.osFailure => SafeIoErrorKind.osError
  | NativeError.otherFailure => SafeIoErrorKind.unknownError

/-- Modelled from the spec: a typed library error, carrying its kind and
the original native exception as chained cause, exposed for inspection. -/
structure SafeIoError where
  kind : SafeIoErrorKind
  original_exception : Option NativeError := none
deriving Repr, DecidableEq

/-- Wraps a native failure exactly once into the typed taxonomy with the
native failure attached as cause. -/
def wrapNative (e : NativeError) : SafeIoError :=
  ⟨classifyNative e, some e⟩

/-- Modelled from the spec (section 4.6): opening the target of a writer.
The filesystem entry for the target path is an Option of its contents;
opening returns the new entry, or a typed already-exists error in
fail-if-exists mode against an existing file. -/
def openWriterFs (mode : TextFileWriteMode) (fs : Option (List Char)) :
    Except SafeIoError (Option (List Char)) :=
  match mode, fs with
  | TextFileWriteMode.createNew, some _ => Except.error (wrapNative NativeError.alreadyExists)
  | TextFileWriteMode.createNew, none => Except.ok (some [])
  | TextFileWriteMode.createOrTruncate, _ => Except.ok (some [])
  | TextFileWriteMode.createOrAppend, some c => Except.ok (some c)
  | TextFileWriteMode.createOrAppend, none => Except.ok (some [])

/-- The filesystem entry for the target after an open attempt: unchanged
when the open raised. -/
def fsAfterOpenAttempt (mode : TextFileWriteMode) (fs : Option (List Char)) :
    Option (List Char) :=
  match openWriterFs mode fs with
  | Except.error _ => fs
  | Except.ok fs2 => fs2

/-- C7.  Fail-if-exists atomicity: for every existing target file,
opening a writer in fail-if-exists (CREATE_NEW) mode raises the typed
already-exists error, carrying the native failure as cause, and leaves
the existing contents unchanged. -/
theorem fail_if_exists_atomicity (contents : List Char) :
    openWriterFs TextFileWriteMode.createNew (some contents)
      = Except.error ⟨SafeIoErrorKind.fileAlreadyExists, some NativeError.alreadyExists⟩ ∧
    fsAfterOpenAttempt TextFileWriteMode.createNew (some contents) = some contents := by
  exact ⟨rfl, rfl⟩

/-- Modelled from the spec: the read entry point over a fallible native
byte source; a native failure is wrapped once into the typed taxonomy. -/
def readWithNative (cfg : ReaderConfig) (raw : Except NativeError (List Char)) :
    Except SafeIoError (List Char) :=
  match raw with
  | Except.error e => Except.error (wrapNative e)
  | Except.ok content => Except.ok (read cfg content)

/-- Modelled from the spec: a writer write call over a fallible native
open; a native failure is wrapped once into the typed taxonomy. -/
def writeWithNative (wcfg : WriterConfig)
    (openResult : Except NativeError (Option (List Char))) (text : List Char) :
    Except SafeIoError (List Char) :=
  match openResult with
  | Except.error e => Except.error (wrapNative e)
  | Except.ok _ => Except.ok (written_bytes wcfg text)

/-- Modelled from the spec: path validation over a fallible native
resolve; a native failure is wrapped once into the path-validation error
with the native failure as cause. -/
def validatePathWithNative (resolveResult : Except NativeError (List Char)) :
    Except SafeIoError (List Char) :=
  match resolveResult with
  | Except.error e => Except.error ⟨SafeIoErrorKind.pathValidation, some e⟩
  | Except.ok p => Except.ok p

/-- C8.  Cause preservation: every native failure surfaced by the reader,
the writer, or the path validator is wrapped exactly once into a typed
error of the taxonomy, the mapping from native failure classes to kinds
is the documented one, and the typed error always carries the original
native exception as its cause, exposed via original_exception. -/
theorem cause_preservation (e : NativeError) (cfg : ReaderConfig)
    (wcfg : WriterConfig) (text : List Char) :
    (wrapNative e).original_exception = some e ∧
    readWithNative cfg (Except.error e) = Except.error (wrapNative e) ∧
    writeWithNative wcfg (Except.error e) text = Except.error (wrapNative e) ∧
    validatePathWithNative (Except.error e)
      = Except.error ⟨SafeIoErrorKind.pathValidation, some e⟩ ∧
    classifyNative NativeError.notFound = SafeIoErrorKind.fileNotFound ∧
    classifyNative NativeError.permissionDenied = SafeIoErrorKind.filePermission ∧
    classifyNative NativeError.alreadyExists = SafeIoErrorKind.fileAlreadyExists ∧
    classifyNative NativeError.decodeFailure = SafeIoErrorKind.fileDecoding ∧
    classifyNative NativeError.encodeFailure = SafeIoErrorKind.fileEncoding ∧
    classifyNative NativeError.osFailure = SafeIoErrorKind.osError ∧
    classifyNative NativeError.otherFailure = SafeIoErrorKind.unknownError := by
  exact ⟨rfl, rfl, rfl, rfl, rfl, rfl, rfl, rfl, rfl, rfl, rfl⟩

/-- Modelled from the spec (sections 5 and 9): the lazy chunk sequence of
a reader as an explicit iterator state machine; an exhausted iterator is a
terminal absorbing state. -/
inductive ReaderIterState where
  | active (pending : List (List (List Char)))
  | exhausted
deriving Repr, DecidableEq

/-- One pull on the iterator: the next chunk if any, and the successor
state; pulling an exhausted iterator yields nothing and stays exhausted. -/
def iterNext : ReaderIterState → Option (List (List Char)) × ReaderIterState
  | ReaderIterState.active [] => (none, ReaderIterState.exhausted)
  | ReaderIterState.active (ch :: rest) => (some ch, ReaderIterState.active rest)
  | ReaderIterState.exhausted => (none, ReaderIterState.exhausted)

/-- A freshly constructed reader owns the whole chunk sequence of its
file. -/
def newReaderIter (cfg : ReaderConfig) (bufferSize : Nat) (content : List Char) :
    ReaderIterState :=
  ReaderIterState.active (readlines_as_stream cfg bufferSize content)

/-- Pulls the iterator up to fuel times, collecting the yielded chunks and
stopping at the first empty pull. -/
def runIter : Nat → ReaderIterState → List (List (List Char)) × ReaderIterState
  | 0, st => ([], st)
  | fuel + 1, st =>
    match iterNext st with
    | (none, st2) => ([], st2)
    | (some ch, st2) =>
      let r := runIter fuel st2
      (ch :: r.1, r.2)

theorem runIter_active (l : List (List (List Char))) :
    runIter (l.length + 1) (ReaderIterState.active l) = (l, ReaderIterState.exhausted) := by
  induction l with
  | nil => rfl
  | cons ch rest ih =>
    have hstep : runIter ((ch :: rest).length + 1) (ReaderIterState.active (ch :: rest))
        = (ch :: (runIter (rest.length + 1) (ReaderIterState.active rest)).1,
           (runIter (rest.length + 1) (ReaderIterState.active rest)).2) := rfl
    rw [hstep, ih]

theorem runIter_exhausted (n : Nat) :
    runIter n ReaderIterState.exhausted = ([], ReaderIterState.exhausted) := by
  cases n with
  | zero => rfl
  | succ m => rfl

/-- C9.  Non-restartability: the chunk sequence of a reader instance is
finite — draining the iterator yields exactly the chunk list and ends in
the exhausted state; the exhausted state is absorbing, so once the
sequence is exhausted or abandoned no further chunk can ever be obtained
from that same iterator state, however many further pulls are made; and
reading again is done by constructing a new reader, whose fresh iterator
yields the chunks anew. -/
theorem non_restartability (cfg : ReaderConfig) (bufferSize : Nat) (content : List Char) :
    runIter ((readlines_as_stream cfg bufferSize content).length + 1)
        (newReaderIter cfg bufferSize content)
      = (readlines_as_stream cfg bufferSize content, ReaderIterState.exhausted) ∧
    iterNext ReaderIterState.exhausted = (none, ReaderIterState.exhausted) ∧
    (∀ n, runIter n ReaderIterState.exhausted = ([], ReaderIterState.exhausted)) ∧
    runIter ((readlines_as_stream cfg bufferSize content).length + 1)
        (ReaderIterState.active (readlines_as_stream cfg bufferSize content))
      = (readlines_as_stream cfg bufferSize content, ReaderIterState.exhausted) := by
  refine ⟨runIter_active _, rfl, runIter_exhausted, runIter_active _⟩

theorem splitLinesOneShot_trailing_newline {c : Char} (h : isLineTerm c = false)
    (s : List Char) :
    splitLinesOneShot ((s ++ [c]) ++ ['\n']) = splitLinesOneShot (s ++ [c]) := by
  have h1 : runSplitter splitInit (s ++ [c]) = splitStep (runSplitter splitInit s) c := by
    rw [runSplitter_append]
    rfl
  have h2 : runSplitter splitInit ((s ++ [c]) ++ ['\n'])
      = splitStep (splitStep (runSplitter splitInit s) c) '\n' := by
    rw [runSplitter_append, h1]
    rfl
  rw [splitLinesOneShot_def, splitLinesOneShot_def, h1, h2]
  rcases hA : runSplitter splitInit s with ⟨L, f, b⟩
  have e1 : ¬('\n' : Char) = '\r' := by decide
  have e2 : isLineTerm '\n' = true := by decide
  cases b with
  | true =>
    rw [splitStep_nonterm_cr h L f]
    have h3 : splitStep ⟨L ++ [f], [c], false⟩ '\n' = ⟨(L ++ [f]) ++ [[c]], [], false⟩ := by
      simp [splitStep, e1, e2]
    rw [h3]
    simp
  | false =>
    rw [splitStep_nonterm h L f]
    have h3 : splitStep ⟨L, f ++ [c], false⟩ '\n' = ⟨L ++ [f ++ [c]], [], false⟩ := by
      simp [splitStep, e1, e2]
    rw [h3]
    simp

/-- C10.  Trailing-terminator insensitivity: for every non-empty content
not ending in a terminator (written s plus a final non-terminator
character), appending one canonical line-feed terminator changes none of
read, readlines, or readlines_as_stream — a trailing newline at end of
file never produces an extra empty final line; and the empty file yields
the empty string from read, no lines from readlines, and no chunks from
readlines_as_stream. -/
theorem trailing_terminator_insensitivity (cfg : ReaderConfig) (bufferSize : Nat)
    (s : List Char) (c : Char) (h : isLineTerm c = false) :
    readlines cfg ((s ++ [c]) ++ ['\n']) = readlines cfg (s ++ [c]) ∧
    read cfg ((s ++ [c]) ++ ['\n']) = read cfg (s ++ [c]) ∧
    readlines_as_stream cfg bufferSize ((s ++ [c]) ++ ['\n'])
      = readlines_as_stream cfg bufferSize (s ++ [c]) ∧
    read cfg [] = [] ∧ readlines cfg [] = [] ∧
    readlines_as_stream cfg bufferSize [] = [] := by
  have hsplit := splitLinesOneShot_trailing_newline h s
  have hrl : readlines cfg ((s ++ [c]) ++ ['\n']) = readlines cfg (s ++ [c]) := by
    simp only [readlines, hsplit]
  have hnil : splitLinesOneShot [] = [] := rfl
  have hrlnil : readlines cfg [] = [] := by
    simp [readlines, hnil, applyHeaderFooter, filterLines]
  refine ⟨hrl, by simp only [read, hrl], ?_, ?_, hrlnil, ?_⟩
  · simp only [readlines_as_stream]
    rw [stream_flat_eq_readlines cfg bufferSize ((s ++ [c]) ++ ['\n']),
      stream_flat_eq_readlines cfg bufferSize (s ++ [c]), hrl]
  · simp only [read, hrlnil, joinWith]
  · rw [show readlines_as_stream cfg bufferSize []
        = chunksOf cfg.chunk_size (readlines_as_stream_flat cfg bufferSize []) from rfl,
      stream_flat_eq_readlines cfg bufferSize [], hrlnil]
    rfl

/-- C10 witness: appending a newline to a concrete two-line file that
ends in a plain character leaves readlines unchanged. -/
theorem trailing_terminator_insensitivity_witness :
    isLineTerm 'b' = false ∧
    readlines defaultConfig ((('a' :: '\n' :: []) ++ ['b']) ++ ['\n'])
      = readlines defaultConfig (('a' :: '\n' :: []) ++ ['b']) :=
  ⟨by decide,
    (trailing_terminator_insensitivity defaultConfig 4 ('a' :: '\n' :: []) 'b' (by decide)).1⟩

end SplurgeSafeIo
